import Mathlib

/-!
Verification of the klogr logging adapter (pkg/logger/klogr/klogr.go).

The Go source implements a logr-style logger on top of klog.  We embed the
package shallowly: Go `interface\x7b\x7d` values become the inductive `GoVal`,
the klogger struct becomes a Lean structure, and the two external write
primitives (klog.InfoDepth / klog.ErrorDepth) are modelled as emitted
`SinkEvent`s.  The external klog verbosity query is modelled, following the
spec's external-interface section, as a `Sink` capability record.
-/

/-- A Go `interface\x7b\x7d` value as it can reach this package.  The
formatter dispatches on the dynamic type: `string`, `error` (carrying its
`Error()` text), a `fmt.Stringer` (carrying its `String()` text), `int`,
the nil interface, `other` for any remaining comparable value, and
`nonCmp` for a value of a non-comparable dynamic type (a slice, map, or
function), both carried as their `%+v` rendering.  Using a `nonCmp` value
as a key of the Go map `seenKeys` panics at run time ("hash of
unhashable type"); the plain functions below describe the non-panicking
executions, and the `...Chk` variants make that abort path explicit. -/
inductive GoVal where
  | str : String → GoVal
  | err : String → GoVal
  | stringerV : String → GoVal
  | int : Int → GoVal
  | nil : GoVal
  | other : String → GoVal
  | nonCmp : String → GoVal
deriving DecidableEq

/-- Go `fmt` `%s` rendering of a value (used for keys).  Strings print as
themselves, errors and stringers print their text, and values without a
string form print fmt's bad-verb form. -/
def goS : GoVal → String
  | GoVal.str s => s
  | GoVal.err e => e
  | GoVal.stringerV s => s
  | GoVal.int n => "%!s(int=" ++ toString n ++ ")"
  | GoVal.nil => "%!s(<nil>)"
  | GoVal.other r => r
  | GoVal.nonCmp r => r

/-- Go string escaping as applied by `%q` (modelled for the backslash and
double-quote characters, the escapes relevant here). -/
def goEscape (s : String) : String :=
  String.mk (s.data.foldr
    (fun c acc =>
      if c = '\\' then '\\' :: '\\' :: acc
      else if c = '"' then '\\' :: '"' :: acc
      else c :: acc) [])

/-- Go `fmt` `%q` rendering of the textual form of a value: the text,
escaped and wrapped in double quotes. -/
def goQuote (s : String) : String := "\"" ++ goEscape s ++ "\""

/-- Go `fmt` `%+v` rendering of a value. -/
def goPlusV : GoVal → String
  | GoVal.str s => s
  | GoVal.err e => e
  | GoVal.stringerV s => s
  | GoVal.int n => toString n
  | GoVal.nil => "<nil>"
  | GoVal.other r => r
  | GoVal.nonCmp r => r

/-- `const missingValue = "(MISSING)"` (klogr.go line 121). -/
def missingValue : String := "(MISSING)"

/-- One `key=value` entry as written by the body of `kvListFormat`'s loop:
the `switch v.(type)` quotes strings and errors, then quotes stringers,
and falls back to `%+v` (klogr.go lines 137-146). -/
def formatEntry (k v : GoVal) : String :=
  match v with
  | GoVal.str s => goS k ++ "=" ++ goQuote s
  | GoVal.err e => goS k ++ "=" ++ goQuote e
  | GoVal.stringerV s => goS k ++ "=" ++ goQuote s
  | _ => goS k ++ "=" ++ goPlusV v

/-- The entries produced by `kvListFormat`'s loop, in order: the loop steps
`i` by 2, and when `i+1` is out of bounds the value is the string
`missingValue` (klogr.go lines 125-132). -/
def kvEntries : List GoVal → List String
  | [] => []
  | [k] => [formatEntry k (GoVal.str missingValue)]
  | k :: v :: rest => formatEntry k v :: kvEntries rest

/-- Continuation of `kvListFormat` after the first entry: the loop writes a
space before every entry with `i > 0` (klogr.go lines 133-135). -/
def kvTail : List GoVal → String
  | [] => ""
  | [k] => " " ++ formatEntry k (GoVal.str missingValue)
  | k :: v :: rest => " " ++ formatEntry k v ++ kvTail rest

/-- `kvListFormat` (klogr.go lines 123-149): buffer loop over the key/value
list, one `key=value` entry per step, space-separated with no leading
space. -/
def kvListFormat : List GoVal → String
  | [] => ""
  | [k] => formatEntry k (GoVal.str missingValue)
  | k :: v :: rest => formatEntry k v ++ kvTail rest

/-- Continuation of `joinSep`: remaining entries each preceded by a single
space. -/
def joinRest : List String → String
  | [] => ""
  | e :: rest => " " ++ e ++ joinRest rest

/-- Space-separated concatenation with no leading separator; the shape the
spec ascribes to the formatter's output. -/
def joinSep : List String → String
  | [] => ""
  | e :: rest => e ++ joinRest rest

/-- The key/value pairs scanned by `trimDuplicates`' inner loop: the loop
visits the even indices `len-2+(len%2), ..., 2, 0`; at each index the key
is the element there and the value is the next element, or the nil
interface when `i2+1` is out of bounds (klogr.go lines 97-111).  Listed
here in index order; the Go loop visits them from the last to the first. -/
def chunkPairs : List GoVal → List (GoVal × GoVal)
  | [] => []
  | [k] => [(k, GoVal.nil)]
  | k :: v :: rest => (k, v) :: chunkPairs rest

/-- Flatten kept pairs back into a key/value list, the form in which
`trimDuplicates` stores an output layer (klogr.go line 114). -/
def flattenPairs : List (GoVal × GoVal) → List GoVal
  | [] => []
  | p :: rest => p.1 :: p.2 :: flattenPairs rest

/-- The keys of a layer, at the positions `trimDuplicates` treats as keys. -/
def layerKeys (kv : List GoVal) : List GoVal :=
  (chunkPairs kv).map Prod.fst

/-- The inner loop of `trimDuplicates` (klogr.go lines 97-115).  The Go
loop walks the pairs from the last to the first, skipping a key already in
`seenKeys`, otherwise recording the key and prepending the pair to the
output.  Here the recursion settles `rest` (the later pairs) first, then
decides the head pair against the grown seen set, which is the same
processing order; kept pairs come out in their original order. -/
def dedupPairs (seen : List GoVal) : List (GoVal × GoVal) → List (GoVal × GoVal) × List GoVal
  | [] => ([], seen)
  | p :: rest =>
      let pr := dedupPairs seen rest
      if p.1 ∈ pr.2 then pr
      else (p :: pr.1, p.1 :: pr.2)

/-- The outer loop of `trimDuplicates` (klogr.go lines 85-116): layers are
processed from the last to the first with the one shared `seenKeys` set.
The recursion settles `rest` (the later layers) first and threads its seen
set into the head layer. -/
def trimLoop (seen : List GoVal) : List (List GoVal) → List (List GoVal) × List GoVal
  | [] => ([], seen)
  | kv :: rest =>
      let pr := trimLoop seen rest
      let dp := dedupPairs pr.2 (chunkPairs kv)
      (flattenPairs dp.1 :: pr.1, dp.2)

/-- `trimDuplicates` (klogr.go lines 78-118). -/
def trimDuplicates (kvLists : List (List GoVal)) : List (List GoVal) :=
  (trimLoop [] kvLists).1

/-- The loop of `concatenate` (klogr.go lines 177-184): every non-empty
piece is appended, preceded by a single-space argument whenever the
argument list is already non-empty. -/
def concatLoop (args : List String) : List String → List String
  | [] => args
  | piece :: rest =>
      if piece = "" then concatLoop args rest
      else concatLoop ((if args = [] then args else args ++ [" "]) ++ [piece]) rest

/-- `concatenate` (klogr.go lines 172-186): the argument list handed to the
sink, seeded with `prefix+":"` when the name prefix is non-empty.  (`pfx`
stands for the Go field named after the notion of a name prefix.) -/
def concatenate (pfx : String) (pieces : List String) : List String :=
  concatLoop (if pfx = "" then [] else [pfx ++ ":"]) pieces

/-- `const autogeneratedFrameName = "<autogenerated>"` (klogr.go line 59). -/
def autogeneratedFrameName : String := "<autogenerated>"

/-- `framesToCaller` (klogr.go lines 64-73), over a call stack modelled as
the file name recorded at each depth: for `i = 1, 2` the code inspects
`runtime.Caller(i+1)` and returns `i` when the file is not the
autogenerated sentinel; otherwise it returns the safe default 1. -/
def framesToCaller (fileAt : Nat → String) : Nat :=
  if fileAt 2 ≠ autogeneratedFrameName then 1
  else if fileAt 3 ≠ autogeneratedFrameName then 2
  else 1

/-- Modelled from the spec: the external klog sink, absent from src/, is
specified only through the capability `CurrentThresholdAtLeast(level)`;
`klog.V(level).Enabled()` is this query. -/
structure Sink where
  thresholdAtLeast : Int → Bool

/-- A write observed at the external sink: `klog.InfoDepth(depth, text)` or
`klog.ErrorDepth(depth, text)`, the text being the plain concatenation of
the argument strings (fmt.Sprint inserts no space between string
operands). -/
inductive SinkEvent where
  | infoDepth : Nat → String → SinkEvent
  | errorDepth : Nat → String → SinkEvent
deriving DecidableEq

/-- The `klogger` struct (klogr.go lines 38-42).  `pfx` embeds the Go
field holding the accumulated name prefix. -/
structure klogger where
  level : Int
  pfx : String
  values : List GoVal
deriving DecidableEq

/-- `New` (klogr.go lines 30-36). -/
def New : klogger :=
  { level := 0, pfx := "", values := [] }

/-- `copySlice` (klogr.go lines 52-56): element-wise copy into a fresh
slice. -/
def copySlice (l : List GoVal) : List GoVal :=
  l.foldr (fun x acc => x :: acc) []

/-- `clone` (klogr.go lines 44-50). -/
def klogger.clone (l : klogger) : klogger :=
  { level := l.level, pfx := l.pfx, values := copySlice l.values }

/-- `Enabled` (klogr.go lines 160-162): delegates to the sink's global
threshold query at this logger's level. -/
def klogger.Enabled (l : klogger) (sink : Sink) : Bool :=
  sink.thresholdAtLeast l.level

/-- `Info` (klogr.go lines 151-158): when enabled, dedup the two layers,
format each, and write one info record at the resolved depth; otherwise do
nothing. -/
def klogger.Info (l : klogger) (sink : Sink) (fileAt : Nat → String)
    (msg : String) (kvList : List GoVal) : List SinkEvent :=
  if l.Enabled sink then
    let trimmed := trimDuplicates [l.values, kvList]
    let fixedStr := kvListFormat (trimmed.getD 0 [])
    let userStr := kvListFormat (trimmed.getD 1 [])
    [SinkEvent.infoDepth (framesToCaller fileAt)
      (String.join (concatenate l.pfx [msg, fixedStr, userStr]))]
  else []

/-- `Error` (klogr.go lines 164-170): unconditionally format
`["err", err]`, dedup and format the two layers, and write one error
record at the resolved depth.  The Go `error` argument is an interface
value and may be nil, so it is a `GoVal` here. -/
def klogger.Error (l : klogger) (fileAt : Nat → String)
    (e : GoVal) (msg : String) (kvList : List GoVal) : List SinkEvent :=
  let errStr := kvListFormat [GoVal.str "err", e]
  let trimmed := trimDuplicates [l.values, kvList]
  let fixedStr := kvListFormat (trimmed.getD 0 [])
  let userStr := kvListFormat (trimmed.getD 1 [])
  [SinkEvent.errorDepth (framesToCaller fileAt)
    (String.join (concatenate l.pfx [msg, errStr, fixedStr, userStr]))]

/-- `V` (klogr.go lines 188-192). -/
def klogger.V (l : klogger) (level : Int) : klogger :=
  { l.clone with level := level }

/-- `WithName` (klogr.go lines 197-204): append `"/" ++ name` to a
non-empty prefix, else start the prefix at `name`. -/
def klogger.WithName (l : klogger) (name : String) : klogger :=
  { l.clone with pfx := (if 0 < l.pfx.length then l.pfx ++ "/" else l.clone.pfx) ++ name }

/-- `WithValues` (klogr.go lines 206-210): clone, then append the new
key/value arguments. -/
def klogger.WithValues (l : klogger) (kvList : List GoVal) : klogger :=
  { l.clone with values := (l.clone).values ++ kvList }

/-- Whether a value is comparable in the Go sense, i.e. usable as a map
key: slices, maps and functions are not, and `seenKeys[k]` (klogr.go
lines 100 and 104) panics on them with "hash of unhashable type". -/
def goComparable : GoVal → Bool
  | GoVal.nonCmp _ => false
  | _ => true

/-- The inner loop of `trimDuplicates` with the Go panic path made
explicit: `none` models the run-time panic raised by `seenKeys[k]`
(klogr.go line 100) when the key just reached is not comparable.  On
pairs whose keys are all comparable it computes exactly `dedupPairs`
(theorem `dedupPairsChk_comparable`). -/
def dedupPairsChk (seen : List GoVal) :
    List (GoVal × GoVal) → Option (List (GoVal × GoVal) × List GoVal)
  | [] => some ([], seen)
  | p :: rest =>
      match dedupPairsChk seen rest with
      | none => none
      | some pr =>
          if goComparable p.1 then
            if p.1 ∈ pr.2 then some pr
            else some (p :: pr.1, p.1 :: pr.2)
          else none

/-- The outer loop of `trimDuplicates` with the panic path made explicit;
any non-comparable key in any layer aborts the whole call. -/
def trimLoopChk (seen : List GoVal) :
    List (List GoVal) → Option (List (List GoVal) × List GoVal)
  | [] => some ([], seen)
  | kv :: rest =>
      match trimLoopChk seen rest with
      | none => none
      | some pr =>
          match dedupPairsChk pr.2 (chunkPairs kv) with
          | none => none
          | some dp => some (flattenPairs dp.1 :: pr.1, dp.2)

/-- `trimDuplicates` with the panic path made explicit. -/
def trimDuplicatesChk (kvLists : List (List GoVal)) : Option (List (List GoVal)) :=
  (trimLoopChk [] kvLists).map Prod.fst

/-- `Info` (klogr.go lines 151-158) with the panic path made explicit:
when enabled, the call runs `trimDuplicates` over the accumulated and
per-call layers before any write, so a non-comparable key there aborts
the call (`none`); when disabled the layers are never touched and nothing
is written. -/
def klogger.InfoChk (l : klogger) (sink : Sink) (fileAt : Nat → String)
    (msg : String) (kvList : List GoVal) : Option (List SinkEvent) :=
  if l.Enabled sink then
    (trimDuplicatesChk [l.values, kvList]).map (fun trimmed =>
      [SinkEvent.infoDepth (framesToCaller fileAt)
        (String.join (concatenate l.pfx [msg,
          kvListFormat (trimmed.getD 0 []),
          kvListFormat (trimmed.getD 1 [])]))])
  else some []

/-- `Error` (klogr.go lines 164-170) with the panic path made explicit:
the `["err", err]` layer is formatted first, then `trimDuplicates` runs
unconditionally, so a non-comparable key in the accumulated or per-call
layer aborts the call before the write. -/
def klogger.ErrorChk (l : klogger) (fileAt : Nat → String)
    (e : GoVal) (msg : String) (kvList : List GoVal) : Option (List SinkEvent) :=
  (trimDuplicatesChk [l.values, kvList]).map (fun trimmed =>
    [SinkEvent.errorDepth (framesToCaller fileAt)
      (String.join (concatenate l.pfx [msg, kvListFormat [GoVal.str "err", e],
        kvListFormat (trimmed.getD 0 []),
        kvListFormat (trimmed.getD 1 [])]))])

/-! ### Lemmas about the deduplication inner loop -/

theorem dedupPairs_seen_mem (k : GoVal) (seen : List GoVal) (ps : List (GoVal × GoVal)) :
    k ∈ (dedupPairs seen ps).2 ↔ k ∈ seen ∨ k ∈ ps.map Prod.fst := by
  induction ps with
  | nil => simp [dedupPairs]
  | cons p rest ih =>
      simp only [dedupPairs, List.map_cons, List.mem_cons]
      by_cases h : p.1 ∈ (dedupPairs seen rest).2
      · simp only [if_pos h]
        rw [ih]
        constructor
        · rintro (hs | hr)
          · exact Or.inl hs
          · exact Or.inr (Or.inr hr)
        · rintro (hs | hk | hr)
          · exact Or.inl hs
          · subst hk
            exact (ih.mp h).imp id id
          · exact Or.inr hr
      · simp only [if_neg h, List.mem_cons]
        rw [ih]
        tauto

theorem dedupPairs_kept_sublist (seen : List GoVal) (ps : List (GoVal × GoVal)) :
    List.Sublist (dedupPairs seen ps).1 ps := by
  induction ps with
  | nil => simp [dedupPairs]
  | cons p rest ih =>
      simp only [dedupPairs]
      by_cases h : p.1 ∈ (dedupPairs seen rest).2
      · simp only [if_pos h]
        exact ih.cons p
      · simp only [if_neg h]
        exact ih.cons₂ p

theorem dedupPairs_kept_not_seen (k : GoVal) (seen : List GoVal) (ps : List (GoVal × GoVal))
    (hk : k ∈ seen) : k ∉ (dedupPairs seen ps).1.map Prod.fst := by
  induction ps with
  | nil => simp [dedupPairs]
  | cons p rest ih =>
      simp only [dedupPairs]
      by_cases h : p.1 ∈ (dedupPairs seen rest).2
      · simp only [if_pos h]
        exact ih
      · simp only [if_neg h, List.map_cons, List.mem_cons]
        rintro (hk1 | hk2)
        · exact h ((dedupPairs_seen_mem p.1 seen rest).mpr (Or.inl (hk1 ▸ hk)))
        · exact ih hk2

theorem dedupPairs_kept_mem (k : GoVal) (seen : List GoVal) (ps : List (GoVal × GoVal))
    (hks : k ∉ seen) (hk : k ∈ ps.map Prod.fst) :
    k ∈ (dedupPairs seen ps).1.map Prod.fst := by
  induction ps with
  | nil => simp at hk
  | cons p rest ih =>
      simp only [List.map_cons, List.mem_cons] at hk
      simp only [dedupPairs]
      by_cases h : p.1 ∈ (dedupPairs seen rest).2
      · simp only [if_pos h]
        rcases hk with hk | hk
        · subst hk
          rcases (dedupPairs_seen_mem p.1 seen rest).mp h with hs | hr
          · exact absurd hs hks
          · exact ih hr
        · exact ih hk
      · simp only [if_neg h, List.map_cons, List.mem_cons]
        rcases hk with hk | hk
        · exact Or.inl hk
        · exact Or.inr (ih hk)

theorem dedupPairs_last_kept (p : GoVal × GoVal) (ps : List (GoVal × GoVal)) :
    ∃ ke, (dedupPairs [] (ps ++ [p])).1 = ke ++ [p] := by
  induction ps with
  | nil =>
      refine ⟨[], ?_⟩
      simp [dedupPairs]
  | cons q rest ih =>
      obtain ⟨ke, hke⟩ := ih
      simp only [List.cons_append, dedupPairs, List.append_eq]
      by_cases h : q.1 ∈ (dedupPairs [] (rest ++ [p])).2
      · simp only [if_pos h]
        exact ⟨ke, hke⟩
      · simp only [if_neg h, hke]
        exact ⟨q :: ke, rfl⟩

/-! ### Lemmas about chunking and the outer loop -/

theorem getD_mem_of_lt {α : Type} (l : List α) (n : Nat) (d : α) (h : n < l.length) :
    l.getD n d ∈ l := by
  induction l generalizing n with
  | nil => simp at h
  | cons a rest ih =>
      cases n with
      | zero => simp
      | succ m =>
          simp only [List.getD_cons_succ, List.mem_cons]
          exact Or.inr (ih m (by simpa using h))

theorem chunkPairs_flattenPairs (l : List (GoVal × GoVal)) :
    chunkPairs (flattenPairs l) = l := by
  induction l with
  | nil => rfl
  | cons p rest ih => simp [flattenPairs, chunkPairs, ih]

theorem kvEntries_flattenPairs (l : List (GoVal × GoVal)) :
    kvEntries (flattenPairs l) = l.map (fun p => formatEntry p.1 p.2) := by
  induction l with
  | nil => rfl
  | cons p rest ih => simp [flattenPairs, kvEntries, ih]

theorem trimLoop_length (seen : List GoVal) (ls : List (List GoVal)) :
    (trimLoop seen ls).1.length = ls.length := by
  induction ls with
  | nil => rfl
  | cons kv rest ih => simp [trimLoop, ih]

theorem trimLoop_seen_mem (k : GoVal) (seen : List GoVal) (ls : List (List GoVal)) :
    k ∈ (trimLoop seen ls).2 ↔ k ∈ seen ∨ ∃ kv, kv ∈ ls ∧ k ∈ layerKeys kv := by
  induction ls with
  | nil => simp [trimLoop]
  | cons kv rest ih =>
      simp only [trimLoop]
      rw [dedupPairs_seen_mem, ih]
      simp only [layerKeys, List.mem_cons]
      constructor
      · rintro ((hs | ⟨kv', h1, h2⟩) | hk)
        · exact Or.inl hs
        · exact Or.inr ⟨kv', Or.inr h1, h2⟩
        · exact Or.inr ⟨kv, Or.inl rfl, hk⟩
      · rintro (hs | ⟨kv', (rfl | h1), h2⟩)
        · exact Or.inl (Or.inl hs)
        · exact Or.inr h2
        · exact Or.inl (Or.inr ⟨kv', h1, h2⟩)

theorem trimLoop_later_removed (seen : List GoVal) (ls : List (List GoVal)) :
    ∀ i j k, i < j → j < ls.length → k ∈ layerKeys (ls.getD j []) →
      k ∉ layerKeys ((trimLoop seen ls).1.getD i []) := by
  induction ls with
  | nil =>
      intro i j k _ hj
      simp at hj
  | cons kv rest ih =>
      intro i j k hij hj hkj
      cases j with
      | zero => exact absurd hij (Nat.not_lt_zero i)
      | succ j' =>
          cases i with
          | zero =>
              simp only [trimLoop, List.getD_cons_zero, layerKeys, chunkPairs_flattenPairs]
              apply dedupPairs_kept_not_seen
              rw [trimLoop_seen_mem]
              refine Or.inr ⟨rest.getD j' [], ?_, ?_⟩
              · exact getD_mem_of_lt rest j' [] (by simpa using hj)
              · simpa [List.getD_cons_succ] using hkj
          | succ i' =>
              simp only [trimLoop, List.getD_cons_succ]
              exact ih i' j' k (by omega) (by simpa using hj)
                (by simpa [List.getD_cons_succ] using hkj)

theorem trimLoop_layer_sublist (seen : List GoVal) (ls : List (List GoVal)) (i : Nat) :
    List.Sublist (chunkPairs ((trimLoop seen ls).1.getD i [])) (chunkPairs (ls.getD i [])) := by
  induction ls generalizing i with
  | nil =>
      simp only [trimLoop, List.getD]
      exact List.Sublist.refl _
  | cons kv rest ih =>
      cases i with
      | zero =>
          simp only [trimLoop, List.getD_cons_zero, chunkPairs_flattenPairs]
          exact dedupPairs_kept_sublist _ _
      | succ i' =>
          simp only [trimLoop, List.getD_cons_succ]
          exact ih i'

theorem trimLoop_unique_kept (seen : List GoVal) (ls : List (List GoVal)) :
    ∀ i k, k ∉ seen → i < ls.length → k ∈ layerKeys (ls.getD i []) →
      (∀ j, i < j → j < ls.length → k ∉ layerKeys (ls.getD j [])) →
      k ∈ layerKeys ((trimLoop seen ls).1.getD i []) := by
  induction ls with
  | nil =>
      intro i k _ hi
      simp at hi
  | cons kv rest ih =>
      intro i k hks hi hki hlater
      cases i with
      | zero =>
          simp only [trimLoop, List.getD_cons_zero, layerKeys, chunkPairs_flattenPairs]
          apply dedupPairs_kept_mem
          · rw [trimLoop_seen_mem]
            rintro (hs | ⟨kv', hkv', hk'⟩)
            · exact hks hs
            · obtain ⟨n, hn, rfl⟩ := List.getElem_of_mem hkv'
              refine hlater (n + 1) (Nat.succ_pos n) (by simpa using hn) ?_
              simpa [List.getD_cons_succ, List.getD, List.getElem?_eq_getElem hn] using hk'
          · simpa [layerKeys, List.getD_cons_zero] using hki
      | succ i' =>
          simp only [trimLoop, List.getD_cons_succ]
          apply ih i' k hks (by simpa using hi)
            (by simpa [List.getD_cons_succ] using hki)
          intro j hj hjlen hkj
          exact hlater (j + 1) (by omega) (by simpa using hjlen)
            (by simpa [List.getD_cons_succ] using hkj)

theorem chunkPairs_odd_last (kvs : List GoVal) (k : GoVal)
    (hlen : kvs.length % 2 = 1) (hlast : kvs.getLast? = some k) :
    ∃ ps, chunkPairs kvs = ps ++ [(k, GoVal.nil)] := by
  induction kvs using chunkPairs.induct with
  | case1 => simp at hlen
  | case2 k0 =>
      refine ⟨[], ?_⟩
      simp only [List.getLast?_singleton, Option.some.injEq] at hlast
      simp [chunkPairs, hlast]
  | case3 k0 v0 rest ih =>
      have hr : rest.length % 2 = 1 := by
        have h := hlen
        simp only [List.length_cons] at h
        omega
      have hne : rest ≠ [] := by
        intro h
        rw [h] at hr
        simp at hr
      obtain ⟨r0, rest', rfl⟩ := List.exists_cons_of_ne_nil hne
      have hlast' : (r0 :: rest').getLast? = some k := by
        rw [List.getLast?_cons_cons, List.getLast?_cons_cons] at hlast
        exact hlast
      obtain ⟨ps, hps⟩ := ih hr hlast'
      exact ⟨(k0, v0) :: ps, by simp [chunkPairs, hps]⟩

/-! ### Shared helper lemmas about the dispatcher and formatter -/

theorem copySlice_eq (xs : List GoVal) : copySlice xs = xs := by
  induction xs with
  | nil => rfl
  | cons x rest ih => simp [copySlice]

theorem clone_eq (l : klogger) : l.clone = l := by
  cases l with
  | mk lv px vs => simp [klogger.clone, copySlice_eq]

theorem klogger.Info_enabled (l : klogger) (sink : Sink) (fileAt : Nat → String)
    (msg : String) (kvs : List GoVal) (h : l.Enabled sink = true) :
    l.Info sink fileAt msg kvs
      = [SinkEvent.infoDepth (framesToCaller fileAt)
          (String.join (concatenate l.pfx [msg,
            kvListFormat ((trimDuplicates [l.values, kvs]).getD 0 []),
            kvListFormat ((trimDuplicates [l.values, kvs]).getD 1 [])]))] := by
  unfold klogger.Info
  rw [h]
  simp

theorem klogger.Info_disabled (l : klogger) (sink : Sink) (fileAt : Nat → String)
    (msg : String) (kvs : List GoVal) (h : l.Enabled sink = false) :
    l.Info sink fileAt msg kvs = [] := by
  unfold klogger.Info
  rw [h]
  simp

theorem kvTail_eq_joinRest (l : List GoVal) :
    kvTail l = joinRest (kvEntries l) := by
  induction l using kvTail.induct with
  | case1 => rfl
  | case2 k => simp [kvTail, kvEntries, joinRest]
  | case3 k v rest ih => simp only [kvTail, kvEntries, joinRest, ih]

theorem kvListFormat_eq_joinSep (kvs : List GoVal) :
    kvListFormat kvs = joinSep (kvEntries kvs) := by
  match kvs with
  | [] => rfl
  | [k] => simp [kvListFormat, kvEntries, joinSep, joinRest]
  | k :: v :: rest =>
      simp only [kvListFormat, kvEntries, joinSep, kvTail_eq_joinRest]

theorem dedupPairsChk_comparable (seen : List GoVal) (ps : List (GoVal × GoVal))
    (h : ∀ p ∈ ps, goComparable p.1 = true) :
    dedupPairsChk seen ps = some (dedupPairs seen ps) := by
  induction ps with
  | nil => rfl
  | cons p rest ih =>
      have hr := ih (fun q hq => h q (List.mem_cons_of_mem p hq))
      have hp := h p (List.mem_cons_self p rest)
      simp only [dedupPairsChk, dedupPairs, hr, hp, if_true]
      split <;> rfl

theorem trimLoopChk_comparable (seen : List GoVal) (ls : List (List GoVal))
    (h : ∀ kv ∈ ls, ∀ p ∈ chunkPairs kv, goComparable p.1 = true) :
    trimLoopChk seen ls = some (trimLoop seen ls) := by
  induction ls with
  | nil => rfl
  | cons kv rest ih =>
      have hr := ih (fun kv' hkv' => h kv' (List.mem_cons_of_mem kv hkv'))
      have hd := dedupPairsChk_comparable (trimLoop seen rest).2 (chunkPairs kv)
        (h kv (List.mem_cons_self kv rest))
      simp only [trimLoopChk, trimLoop, hr, hd]

/-! ### The claims -/

/-- Claim C1: `trimDuplicates` returns the same number of layers; any key
also present in a strictly later layer is removed from the earlier layer;
the surviving pairs of each layer keep their original relative order (the
output layer's pairs form a sublist of the input layer's scanned pairs);
a key unique across the merged whole stays in its original layer; and on
the layers `[["a",1,"b",2], ["b",3]]` the result is
`[["a",1], ["b",3]]`. -/
theorem C1_trimDuplicates_spec (ls : List (List GoVal)) :
    (trimDuplicates ls).length = ls.length
    ∧ (∀ i j k, i < j → j < ls.length → k ∈ layerKeys (ls.getD j []) →
        k ∉ layerKeys ((trimDuplicates ls).getD i []))
    ∧ (∀ i, List.Sublist (chunkPairs ((trimDuplicates ls).getD i []))
        (chunkPairs (ls.getD i [])))
    ∧ (∀ i k, i < ls.length → k ∈ layerKeys (ls.getD i []) →
        (∀ j, j < ls.length → j ≠ i → k ∉ layerKeys (ls.getD j [])) →
        k ∈ layerKeys ((trimDuplicates ls).getD i []))
    ∧ trimDuplicates [[GoVal.str "a", GoVal.int 1, GoVal.str "b", GoVal.int 2],
        [GoVal.str "b", GoVal.int 3]]
      = [[GoVal.str "a", GoVal.int 1], [GoVal.str "b", GoVal.int 3]] := by
  refine ⟨trimLoop_length [] ls, ?_, ?_, ?_, by decide⟩
  · intro i j k hij hj hkj
    exact trimLoop_later_removed [] ls i j k hij hj hkj
  · intro i
    exact trimLoop_layer_sublist [] ls i
  · intro i k hi hki huniq
    exact trimLoop_unique_kept [] ls i k (by simp) hi hki
      (fun j hj hjlen => huniq j hjlen (by omega))

theorem C1_trimDuplicates_spec_witness :
    GoVal.str "b" ∉ layerKeys ((trimDuplicates
        [[GoVal.str "a", GoVal.int 1, GoVal.str "b", GoVal.int 2],
         [GoVal.str "b", GoVal.int 3]]).getD 0 [])
    ∧ GoVal.str "a" ∈ layerKeys ((trimDuplicates
        [[GoVal.str "a", GoVal.int 1, GoVal.str "b", GoVal.int 2],
         [GoVal.str "b", GoVal.int 3]]).getD 0 []) := by
  constructor
  · exact (C1_trimDuplicates_spec
      [[GoVal.str "a", GoVal.int 1, GoVal.str "b", GoVal.int 2],
       [GoVal.str "b", GoVal.int 3]]).2.1 0 1 (GoVal.str "b")
      (by decide) (by decide) (by decide)
  · exact (C1_trimDuplicates_spec
      [[GoVal.str "a", GoVal.int 1, GoVal.str "b", GoVal.int 2],
       [GoVal.str "b", GoVal.int 3]]).2.2.2.1 0 (GoVal.str "a")
      (by decide) (by decide)
      (fun j hj hne => by
        have hj' : j < 2 := by simpa using hj
        have hj1 : j = 1 := by omega
        subst hj1
        decide)

/-- Claim C2: for the logger `New().WithValues("a",1).WithName("svc")`,
`Info("started", "b",2)` with a sink whose threshold check succeeds at
level 0 writes the assembled text `svc: started a=1 b=2` (ordered
non-empty pieces joined with single spaces, the prefix carrying a trailing
colon). -/
theorem C2_end_to_end (sink : Sink) (fileAt : Nat → String)
    (h : sink.thresholdAtLeast 0 = true) :
    klogger.Info ((New.WithValues [GoVal.str "a", GoVal.int 1]).WithName "svc")
      sink fileAt "started" [GoVal.str "b", GoVal.int 2]
    = [SinkEvent.infoDepth (framesToCaller fileAt) "svc: started a=1 b=2"] := by
  have hE : ((New.WithValues [GoVal.str "a", GoVal.int 1]).WithName "svc").Enabled sink
      = true := h
  rw [klogger.Info_enabled _ _ _ _ _ hE]
  rfl

theorem C2_end_to_end_witness :
    klogger.Info ((New.WithValues [GoVal.str "a", GoVal.int 1]).WithName "svc")
      ⟨fun _ => true⟩ (fun _ => "main.go") "started" [GoVal.str "b", GoVal.int 2]
    = [SinkEvent.infoDepth 1 "svc: started a=1 b=2"] :=
  (C2_end_to_end ⟨fun _ => true⟩ (fun _ => "main.go") rfl).trans (by decide)

/-- Claim C3: `Error` always emits exactly one error-at-depth record at
the sink, for every logger state, error value, message and key/value
arguments; its definition never consults `Enabled` or the sink's
threshold (it does not even take the sink as an input), so errors are
never suppressed by verbosity. -/
theorem C3_error_unconditional (l : klogger) (fileAt : Nat → String)
    (e : GoVal) (msg : String) (kvs : List GoVal) :
    ∃ text, klogger.Error l fileAt e msg kvs
      = [SinkEvent.errorDepth (framesToCaller fileAt) text] :=
  ⟨_, rfl⟩

/-- Claim C4: `Enabled` is exactly the sink's global threshold check at
the logger's level, and when it is false `Info` is a no-op emitting no
sink event at all. -/
theorem C4_info_noop_when_disabled (sink : Sink) (l : klogger)
    (fileAt : Nat → String) (msg : String) (kvs : List GoVal) :
    (l.Enabled sink = sink.thresholdAtLeast l.level)
    ∧ (l.Enabled sink = false → l.Info sink fileAt msg kvs = []) :=
  ⟨rfl, fun h => klogger.Info_disabled l sink fileAt msg kvs h⟩

theorem C4_info_noop_when_disabled_witness :
    klogger.Info New ⟨fun _ => false⟩ (fun _ => "main.go") "started" [] = [] :=
  (C4_info_noop_when_disabled ⟨fun _ => false⟩ New (fun _ => "main.go")
    "started" []).2 rfl

/-- The claim C5's odd-length example fails on the code: `kvListFormat`
assigns the *string* `"(MISSING)"` as the value of the unpaired key, and
the type switch therefore quotes it, yielding `k="(MISSING)"`, not
`k=(MISSING)`. -/
theorem C5_counterexample :
    kvListFormat [GoVal.str "k"] ≠ "k=(MISSING)"
    ∧ kvListFormat [GoVal.str "k"] = "k=\"(MISSING)\"" := by
  constructor
  · decide
  · rfl

/-- Claim C5 (amended): `kvListFormat` joins its `key=value-repr` entries
with single spaces and no leading separator; string and error values are
rendered quoted, stringer values are rendered as their quoted textual
self-representation, and all other values via the generic `%+v` form;
`["k","v"]` yields `k="v"`, and the odd layer `["k"]` yields
`k="(MISSING)"` — the sentinel is itself a string value, so it is quoted
like any string. -/
theorem C5_kvListFormat_spec (kvs : List GoVal) (k : GoVal)
    (s e sv r : String) (n : Int) :
    kvListFormat kvs = joinSep (kvEntries kvs)
    ∧ formatEntry k (GoVal.str s) = goS k ++ "=" ++ goQuote s
    ∧ formatEntry k (GoVal.err e) = goS k ++ "=" ++ goQuote e
    ∧ formatEntry k (GoVal.stringerV sv) = goS k ++ "=" ++ goQuote sv
    ∧ formatEntry k (GoVal.int n) = goS k ++ "=" ++ goPlusV (GoVal.int n)
    ∧ formatEntry k GoVal.nil = goS k ++ "=" ++ goPlusV GoVal.nil
    ∧ formatEntry k (GoVal.other r) = goS k ++ "=" ++ goPlusV (GoVal.other r)
    ∧ kvListFormat [GoVal.str "k", GoVal.str "v"] = "k=\"v\""
    ∧ kvListFormat [GoVal.str "k"] = "k=\"(MISSING)\"" :=
  ⟨kvListFormat_eq_joinSep kvs, rfl, rfl, rfl, rfl, rfl, rfl, rfl, rfl⟩

/-- The claim C6 fails on the code: with the odd per-call list `["k"]`,
`Info` writes the text `m k=<nil>` — `trimDuplicates` pairs the unpaired
key with the nil interface value before the formatter runs, so the text
contains no `(MISSING)` placeholder. -/
theorem C6_counterexample :
    klogger.Info New ⟨fun _ => true⟩ (fun _ => "main.go") "m" [GoVal.str "k"]
      = [SinkEvent.infoDepth 1 "m k=<nil>"]
    ∧ ¬ List.IsInfix "(MISSING)".data "m k=<nil>".data := by
  constructor
  · rfl
  · decide

/-- Claim C6 (amended): in an `Info` or `Error` call whose per-call
key/value list has odd length, the deduplication engine pairs the final
unpaired key with the nil interface value, so the written text renders it
as `key=<nil>` via the generic arm — the call still writes normally and
never fails, but the `(MISSING)` placeholder does not arise, because the
layers always reach the formatter with even length. -/
theorem C6_odd_key_renders_nil (sink : Sink) (fileAt : Nat → String)
    (l : klogger) (e : GoVal) (msg : String) (kvs : List GoVal) (k : GoVal)
    (hlen : kvs.length % 2 = 1) (hlast : kvs.getLast? = some k) :
    (∃ es, kvEntries ((trimDuplicates [l.values, kvs]).getD 1 [])
        = es ++ [formatEntry k GoVal.nil])
    ∧ formatEntry k GoVal.nil = goS k ++ "=" ++ "<nil>"
    ∧ (l.Enabled sink = true →
        l.Info sink fileAt msg kvs
          = [SinkEvent.infoDepth (framesToCaller fileAt)
              (String.join (concatenate l.pfx [msg,
                kvListFormat ((trimDuplicates [l.values, kvs]).getD 0 []),
                kvListFormat ((trimDuplicates [l.values, kvs]).getD 1 [])]))])
    ∧ klogger.Error l fileAt e msg kvs
        = [SinkEvent.errorDepth (framesToCaller fileAt)
            (String.join (concatenate l.pfx [msg,
              kvListFormat [GoVal.str "err", e],
              kvListFormat ((trimDuplicates [l.values, kvs]).getD 0 []),
              kvListFormat ((trimDuplicates [l.values, kvs]).getD 1 [])]))] := by
  refine ⟨?_, rfl, ?_, rfl⟩
  · obtain ⟨ps, hps⟩ := chunkPairs_odd_last kvs k hlen hlast
    obtain ⟨ke, hke⟩ := dedupPairs_last_kept (k, GoVal.nil) ps
    have h1 : (trimDuplicates [l.values, kvs]).getD 1 []
        = flattenPairs (dedupPairs [] (chunkPairs kvs)).1 := rfl
    rw [h1, hps, hke, kvEntries_flattenPairs]
    exact ⟨ke.map (fun p => formatEntry p.1 p.2), by simp⟩
  · intro h
    exact klogger.Info_enabled l sink fileAt msg kvs h

theorem C6_odd_key_renders_nil_witness :
    klogger.Info New ⟨fun _ => true⟩ (fun _ => "f.go") "m" [GoVal.str "k"]
      = [SinkEvent.infoDepth (framesToCaller (fun _ => "f.go"))
          (String.join (concatenate New.pfx ["m",
            kvListFormat ((trimDuplicates [New.values, [GoVal.str "k"]]).getD 0 []),
            kvListFormat ((trimDuplicates [New.values, [GoVal.str "k"]]).getD 1 [])]))] :=
  (C6_odd_key_renders_nil ⟨fun _ => true⟩ (fun _ => "f.go") New GoVal.nil "m"
    [GoVal.str "k"] (GoVal.str "k") (by decide) (by decide)).2.2.1 rfl

/-- Claim C7 names a real failure of the code: `Error` and enabled `Info`
run `trimDuplicates`, whose `seenKeys[k]` map access panics at run time
on a non-comparable key such as a slice, so those operations can abort
the host process on heterogeneous inputs.  This theorem evaluates the
panic-aware embedding at the failing input `Error(nil, "m", []int\x7b1\x7d, 2)`
and its `Info` counterpart (both abort), shows the gated `Info` path does
not touch the layers (no panic when disabled), and shows the panic-aware
functions agree with the plain ones on a comparable-keyed input. -/
theorem C7_panic_on_noncomparable_key :
    klogger.ErrorChk New (fun _ => "main.go") GoVal.nil "m"
      [GoVal.nonCmp "[1]", GoVal.int 2] = none
    ∧ klogger.InfoChk New ⟨fun _ => true⟩ (fun _ => "main.go") "m"
        [GoVal.nonCmp "[1]", GoVal.int 2] = none
    ∧ klogger.InfoChk New ⟨fun _ => false⟩ (fun _ => "main.go") "m"
        [GoVal.nonCmp "[1]", GoVal.int 2] = some []
    ∧ klogger.InfoChk ((New.WithValues [GoVal.str "a", GoVal.int 1]).WithName "svc")
        ⟨fun _ => true⟩ (fun _ => "main.go") "started" [GoVal.str "b", GoVal.int 2]
      = some (klogger.Info ((New.WithValues [GoVal.str "a", GoVal.int 1]).WithName "svc")
          ⟨fun _ => true⟩ (fun _ => "main.go") "started" [GoVal.str "b", GoVal.int 2]) :=
  ⟨rfl, rfl, rfl, rfl⟩

/-- Claim C8: the logger state is a value, never mutated: `copySlice` and
`clone` reproduce the state exactly, `WithValues` builds a new state whose
accumulated values are the parent's followed by the new pairs while the
parent's own fields are untouched, `V` only replaces the level and
`WithName` only extends the name prefix; and a key absent from a parent's
accumulated values and from an `Info` call's arguments (such as a key
added only in a derived child) never appears among the keys of the layers
that call renders. -/
theorem C8_state_immutable (parent : klogger) (kv kvs : List GoVal) (k : GoVal)
    (n : Int) (name : String) :
    copySlice parent.values = parent.values
    ∧ parent.clone = parent
    ∧ ((parent.WithValues kv).values = parent.values ++ kv
        ∧ (parent.WithValues kv).pfx = parent.pfx
        ∧ (parent.WithValues kv).level = parent.level)
    ∧ parent.V n = { parent with level := n }
    ∧ ((parent.WithName name).values = parent.values
        ∧ (parent.WithName name).level = parent.level)
    ∧ (k ∉ layerKeys parent.values → k ∉ layerKeys kvs →
        k ∉ layerKeys ((trimDuplicates [parent.values, kvs]).getD 0 [])
        ∧ k ∉ layerKeys ((trimDuplicates [parent.values, kvs]).getD 1 [])) := by
  refine ⟨copySlice_eq parent.values, clone_eq parent, ?_, ?_, ?_, ?_⟩
  · exact ⟨by simp [klogger.WithValues, clone_eq], rfl, rfl⟩
  · simp [klogger.V, clone_eq]
  · exact ⟨by simp [klogger.WithName, clone_eq], rfl⟩
  · intro h0 h1
    constructor
    · intro hk
      apply h0
      have hsub := (trimLoop_layer_sublist [] [parent.values, kvs] 0).map Prod.fst
      exact hsub.subset hk
    · intro hk
      apply h1
      have hsub := (trimLoop_layer_sublist [] [parent.values, kvs] 1).map Prod.fst
      exact hsub.subset hk

theorem C8_state_immutable_witness :
    GoVal.str "x" ∉ layerKeys ((trimDuplicates [New.values, []]).getD 0 [])
    ∧ GoVal.str "x" ∉ layerKeys ((trimDuplicates [New.values, []]).getD 1 []) :=
  (C8_state_immutable New [GoVal.str "x", GoVal.int 1] [] (GoVal.str "x") 0
    "n").2.2.2.2.2 (by decide) (by decide)

/-- Claim C9: `WithName` appends to the prefix — the new prefix is the
name itself when the old prefix is empty and `old ++ "/" ++ name`
otherwise, with no validation that the name excludes `/`; chaining
`WithName "a"` then `WithName "b"` from the root yields `"a/b"`; and
`New` starts at level 0 with empty prefix and empty values. -/
theorem C9_withName_spec (l : klogger) (name : String) :
    (l.pfx = "" → (l.WithName name).pfx = name)
    ∧ (l.pfx ≠ "" → (l.WithName name).pfx = l.pfx ++ "/" ++ name)
    ∧ ((New.WithName "a").WithName "b").pfx = "a/b"
    ∧ (New.WithName "a/b").pfx = "a/b"
    ∧ New.level = 0 ∧ New.pfx = "" ∧ New.values = [] := by
  refine ⟨?_, ?_, rfl, rfl, rfl, rfl, rfl⟩
  · intro h
    simp [klogger.WithName, klogger.clone, h]
  · intro h
    have hlen : 0 < l.pfx.length := by
      rcases hd : l.pfx.data with _ | ⟨c, cs⟩
      · refine absurd (String.ext ?_) h
        simpa using hd
      · simp [String.length, hd]
    simp [klogger.WithName, hlen]

theorem C9_withName_spec_witness :
    (New.WithName "x").pfx = "x"
    ∧ ((New.WithName "a").WithName "b").pfx = "a" ++ "/" ++ "b" :=
  ⟨(C9_withName_spec New "x").1 rfl,
   (C9_withName_spec (New.WithName "a") "b").2.1 (by decide)⟩

/-- Claim C10: `framesToCaller` returns the first candidate depth `d` in
\x7b1, 2\x7d whose recorded file name at stack depth `d+1` is not the
`<autogenerated>` sentinel, and the safe default 1 when both candidates
are autogenerated. -/
theorem C10_framesToCaller_spec (fileAt : Nat → String) :
    (fileAt 2 ≠ autogeneratedFrameName → framesToCaller fileAt = 1)
    ∧ (fileAt 2 = autogeneratedFrameName → fileAt 3 ≠ autogeneratedFrameName →
        framesToCaller fileAt = 2)
    ∧ (fileAt 2 = autogeneratedFrameName → fileAt 3 = autogeneratedFrameName →
        framesToCaller fileAt = 1) := by
  refine ⟨?_, ?_, ?_⟩
  · intro h
    simp [framesToCaller, h]
  · intro h2 h3
    simp [framesToCaller, h2, h3]
  · intro h2 h3
    simp [framesToCaller, h2, h3]

theorem C10_framesToCaller_spec_witness :
    framesToCaller (fun _ => "<autogenerated>") = 1 :=
  (C10_framesToCaller_spec (fun _ => "<autogenerated>")).2.2 rfl rfl
